import Mathlib

set_option linter.unusedVariables false

/-!
Shallow embedding of the pattern-matching engine from
`src/exercises/08_finale/exercise/src/main.rs`.

Rust strings are modelled as `List Char` (one element per Unicode code
point; the special characters `.`, `(`, `|`, `)` are ASCII, so the byte
indices used by the Rust scanner always fall on character boundaries and
the character-level model is exact).  Rust's in-place mutation of the
`matched_tokens` vector and the remaining-string cursor is modelled by
returning the new values alongside the `bool` the Rust functions return.
-/

/-- MatcherToken models the Rust enum `MatcherToken`: raw literal text,
an alternation of options (`(one|two|three)`), or a single-character
wildcard (`.`). -/
inductive MatcherToken where
  | RawText (text : List Char)
  | OneOfText (options : List (List Char))
  | WildCard
deriving DecidableEq, Repr

/-- MatchStep is one entry of the result vector: the token that matched,
and the exact part of the candidate string that satisfied it. -/
abbrev MatchStep := MatcherToken × List Char

/-- match_raw_text models `Matcher::match_raw_text`: if the remaining
string starts with `text`, append one step and trim the cursor; the
returned triple is (advanced?, new matched_tokens, new string). -/
def match_raw_text (text : List Char) (token : MatcherToken)
    (matched_tokens : List MatchStep) (string : List Char) :
    Bool × List MatchStep × List Char :=
  if text.isPrefixOf string then
    (true, matched_tokens ++ [(token, string.take text.length)], string.drop text.length)
  else
    (false, matched_tokens, string)

/-- match_one_of_text models `Matcher::match_one_of_text`: take the first
option (in declaration order) that is a prefix of the remaining string. -/
def match_one_of_text (options : List (List Char)) (token : MatcherToken)
    (matched_tokens : List MatchStep) (string : List Char) :
    Bool × List MatchStep × List Char :=
  match options.find? (fun option => option.isPrefixOf string) with
  | some option =>
      (true, matched_tokens ++ [(token, string.take option.length)],
        string.drop option.length)
  | none => (false, matched_tokens, string)

/-- match_one_of_text_exhaustive models
`Matcher::match_one_of_text_exhaustive`: every option that is a prefix of
the remaining string, as (index-in-token-list, token, option) triples. -/
def match_one_of_text_exhaustive (options : List (List Char)) (token : MatcherToken)
    (index : Nat) (string : List Char) : List (Nat × MatcherToken × List Char) :=
  (options.filter (fun option => option.isPrefixOf string)).map
    (fun option => (index, token, option))

/-- match_wild_card models `Matcher::match_wild_card`: if at least one
character remains, consume exactly the next code point. -/
def match_wild_card (token : MatcherToken) (matched_tokens : List MatchStep)
    (string : List Char) : Bool × List MatchStep × List Char :=
  match string with
  | [] => (false, matched_tokens, [])
  | c :: rest => (true, matched_tokens ++ [(token, [c])], rest)

/-- scanOpts models the inner `loop` of `Matcher::new` that parses the
body of an alternation after its `(`.  The Rust loop finds the next `|`
or `)` and slices the option off; here the option accumulates character
by character in `optionAcc`.  Returns the parsed options together with
the text remaining after the closing `)`, or `none` on malformed input
(empty option, no pipe before `)`, or input exhausted before `)`). -/
def scanOpts : List Char → List Char → Bool → List (List Char) →
    Option (List (List Char) × List Char)
  | [], _, _, _ => none
  | c :: rest, optionAcc, found_a_pipe, options =>
    if c = '|' then
      if optionAcc = [] then none
      else scanOpts rest [] true (options ++ [optionAcc])
    else if c = ')' then
      if optionAcc = [] ∨ found_a_pipe = false then none
      else some (options ++ [optionAcc], rest)
    else scanOpts rest (optionAcc ++ [c]) found_a_pipe options

/-- pushRaw models `if !raw_text.is_empty() { tokens.push(RawText(..)) }`. -/
def pushRaw (rawAcc : List Char) (tokens : List MatcherToken) : List MatcherToken :=
  if rawAcc = [] then tokens else tokens ++ [MatcherToken.RawText rawAcc]

/-- scanF models the outer `while` loop of `Matcher::new`.  The Rust loop
finds the next `.` or `(` and slices the raw text off; here the raw text
accumulates character by character in `rawAcc`.  The `fuel` argument only
makes the recursion structural: one unit is spent per character of the
input, so any fuel larger than the length of the input never runs out
(`Matcher.new` passes `length + 1`). -/
def scanF : Nat → List Char → List Char → List MatcherToken → Option (List MatcherToken)
  | 0, _, _, _ => none
  | _ + 1, [], rawAcc, tokens =>
      if rawAcc ≠ [] ∨ tokens = [] then some (tokens ++ [MatcherToken.RawText rawAcc])
      else some tokens
  | fuel + 1, c :: rest, rawAcc, tokens =>
      if c = '.' then
        scanF fuel rest [] (pushRaw rawAcc tokens ++ [MatcherToken.WildCard])
      else if c = '(' then
        match scanOpts rest [] false [] with
        | none => none
        | some (options, rest2) =>
            scanF fuel rest2 [] (pushRaw rawAcc tokens ++ [MatcherToken.OneOfText options])
      else scanF fuel rest (rawAcc ++ [c]) tokens

/-- Matcher models the Rust struct `Matcher`: the pattern text, its
compiled token sequence, and the running best-match counter. -/
structure Matcher where
  text : List Char
  tokens : List MatcherToken
  most_tokens_matched : Nat
deriving DecidableEq, Repr

/-- Matcher.new models `Matcher::new`: parse the pattern text into a
token sequence, or fail on a malformed alternation. -/
def Matcher.new (text : List Char) : Option Matcher :=
  (scanF (text.length + 1) text [] []).map
    (fun tokens => { text := text, tokens := tokens, most_tokens_matched := 0 })

/-- stepOn is the dispatch performed by the `match token` statement in the
greedy matching loop of `Matcher::match_string`. -/
def stepOn (token : MatcherToken) (matched_tokens : List MatchStep) (string : List Char) :
    Bool × List MatchStep × List Char :=
  match token with
  | MatcherToken.RawText text => match_raw_text text token matched_tokens string
  | MatcherToken.OneOfText options => match_one_of_text options token matched_tokens string
  | MatcherToken.WildCard => match_wild_card token matched_tokens string

/-- matchTokens models the `for token in &self.tokens` loop of
`Matcher::match_string`: apply the single-step matchers left to right and
stop at the first failure.  Also returns the final remaining string (the
Rust code drops it; keeping it lets the theorems speak about it). -/
def matchTokens : List MatcherToken → List MatchStep → List Char → List MatchStep × List Char
  | [], matched_tokens, string => (matched_tokens, string)
  | token :: rest, matched_tokens, string =>
    let r := stepOn token matched_tokens string
    if r.1 then matchTokens rest r.2.1 r.2.2 else (r.2.1, r.2.2)

/-- Matcher.match_string models `Matcher::match_string`: the greedy
single-pass matcher, including the update of `most_tokens_matched`. -/
def Matcher.match_string (m : Matcher) (string : List Char) : List MatchStep × Matcher :=
  let matched_tokens := (matchTokens m.tokens [] string).1
  (matched_tokens,
    if matched_tokens.length > m.most_tokens_matched then
      { m with most_tokens_matched := matched_tokens.length }
    else m)

/-- OptionalInputData models the Rust struct of the same name: the choice
this frame was spawned from, and the index of its parent Output frame. -/
structure OptionalInputData where
  chosen_option : MatcherToken × List Char
  parent_frame_index : Nat
deriving Repr

/-- InputData models the Rust struct of the same name: work to do. -/
structure InputData where
  tokens : List MatcherToken
  string : List Char
  optional_data : Option OptionalInputData
deriving Repr

/-- OptionalOutputData models the Rust struct of the same name. -/
structure OptionalOutputData where
  parent_frame_index : Nat
deriving Repr

/-- OutputData models the Rust struct of the same name: a finished
sub-search's accumulated result, pending propagation to its parent.
The Rust `LinkedList<Vec<MatchStep>>` is modelled as a list of lists. -/
structure OutputData where
  matched_tokens : List (List MatchStep)
  matched_tokens_count : Nat
  best_current_matched_tokens : List (List MatchStep)
  best_current_matched_tokens_count : Nat
  is_complete_match : Bool
  optional_data : Option OptionalOutputData
deriving Repr

/-- Frame models the Rust enum `Frame`. -/
inductive Frame where
  | Input (d : InputData)
  | Output (d : OutputData)
deriving Repr

/-- walkInput models the `for (index, token) in ..enumerate()` loop of
`Matcher::process_input_frame`: walk the tokens greedily, except that the
first alternation is not resolved inline; instead its matching options
are returned as the branch point (the Rust `options_iter`; `none` and an
empty iterator are conflated as `[]`, which the caller treats alike). -/
def walkInput : List MatcherToken → Nat → List MatchStep → List Char →
    List MatchStep × List Char × List (Nat × MatcherToken × List Char)
  | [], _, matched_tokens, string => (matched_tokens, string, [])
  | token :: rest, index, matched_tokens, string =>
    match token with
    | MatcherToken.RawText text =>
      let r := match_raw_text text token matched_tokens string
      if r.1 then walkInput rest (index + 1) r.2.1 r.2.2 else (r.2.1, r.2.2, [])
    | MatcherToken.OneOfText options =>
      (matched_tokens, string, match_one_of_text_exhaustive options token index string)
    | MatcherToken.WildCard =>
      let r := match_wild_card token matched_tokens string
      if r.1 then walkInput rest (index + 1) r.2.1 r.2.2 else (r.2.1, r.2.2, [])

/-- process_input_frame models `Matcher::process_input_frame`: walk the
frame's tokens, push one Output frame summarizing the resolved prefix,
then push one child Input frame per matching option of the alternation
the walk stopped at (if any).  `stack` is the stack after the Input frame
was popped; the new stack is returned. -/
def process_input_frame (input_data : InputData) (stack : List Frame) : List Frame :=
  let matched0 : List MatchStep :=
    match input_data.optional_data with
    | none => []
    | some d => [d.chosen_option]
  let w := walkInput input_data.tokens 0 matched0 input_data.string
  let matched_tokens := w.1
  let string := w.2.1
  let options_iter := w.2.2
  let matched_tokens_count := matched_tokens.length
  let matched_tokens_list : List (List MatchStep) :=
    if matched_tokens.isEmpty then [] else [matched_tokens]
  let output_frame_index := stack.length
  let stack1 := stack ++ [Frame.Output {
    matched_tokens := matched_tokens_list,
    matched_tokens_count := matched_tokens_count,
    best_current_matched_tokens := [],
    best_current_matched_tokens_count := 0,
    is_complete_match := input_data.tokens.length == matched_tokens_count,
    optional_data := input_data.optional_data.map
      (fun d => { parent_frame_index := d.parent_frame_index }) }]
  stack1 ++ options_iter.map (fun x =>
    Frame.Input {
      tokens := input_data.tokens.drop (x.1 + 1),
      string := string.drop x.2.2.length,
      optional_data := some {
        chosen_option := (x.2.1, string.take x.2.2.length),
        parent_frame_index := output_frame_index } })

/-- process_output_frame models `Matcher::process_output_frame`: fold the
best child into this frame's result; if the frame has no parent, return
the final result (first component `some ..`), otherwise merge it into the
parent's best-child fields in place and return the updated stack.
`stack` is the stack after the Output frame was popped. -/
def process_output_frame (output_data : OutputData) (stack : List Frame) :
    Option (List MatchStep) × List Frame :=
  let count := output_data.matched_tokens_count + output_data.best_current_matched_tokens_count
  let matched := output_data.matched_tokens ++ output_data.best_current_matched_tokens
  match output_data.optional_data with
  | some optional_data =>
    match stack[optional_data.parent_frame_index]? with
    | some (Frame.Output parent_output_data) =>
      let parent2 :=
        if output_data.is_complete_match then
          if ¬parent_output_data.is_complete_match ∨
              count > parent_output_data.best_current_matched_tokens_count then
            { parent_output_data with
              best_current_matched_tokens_count := count,
              best_current_matched_tokens := matched,
              is_complete_match := true }
          else parent_output_data
        else
          if ¬parent_output_data.is_complete_match ∧
              count > parent_output_data.best_current_matched_tokens_count then
            { parent_output_data with
              best_current_matched_tokens_count := count,
              best_current_matched_tokens := matched }
          else parent_output_data
      (none, stack.set optional_data.parent_frame_index (Frame.Output parent2))
    | _ => (none, stack)
  | none => (some matched.flatten, stack)

/-- tokensCost assigns a termination measure to the token slice of an
Input frame: processing the frame pushes one Output frame (cost 1) plus
at most one child Input frame per option of the first alternation, each
child's slice starting strictly after that alternation. -/
def tokensCost : List MatcherToken → Nat
  | [] => 2
  | MatcherToken.RawText _ :: rest => 1 + tokensCost rest
  | MatcherToken.WildCard :: rest => 1 + tokensCost rest
  | MatcherToken.OneOfText options :: rest => 2 + options.length * tokensCost rest

/-- frameCost: measure of one frame. -/
def frameCost : Frame → Nat
  | Frame.Input d => tokensCost d.tokens
  | Frame.Output _ => 1

/-- totalCost: measure of a whole stack; it strictly decreases at every
iteration of the search loop. -/
def totalCost (stack : List Frame) : Nat := (stack.map frameCost).sum

/-- runStackFuel models the `while let Some(frame) = stack.pop()` loop of
`Matcher::match_string_exhaustive`.  The `fuel` argument only makes the
recursion structural: `totalCost` strictly decreases at every iteration
(theorem `runStackFuel_fuel_irrelevant`), so fuel `totalCost stack` never
runs out and the function computes exactly what the unbounded Rust loop
computes.  `none` corresponds to the Rust `unreachable!()` path. -/
def runStackFuel : Nat → List Frame → Option (List MatchStep)
  | 0, _ => none
  | fuel + 1, stack =>
    match stack.getLast? with
    | none => none
    | some frame =>
      let rest := stack.dropLast
      match frame with
      | Frame.Input input_data => runStackFuel fuel (process_input_frame input_data rest)
      | Frame.Output output_data =>
        let r := process_output_frame output_data rest
        match r.1 with
        | some matched_tokens => some matched_tokens
        | none => runStackFuel fuel r.2

/-- Matcher.match_string_exhaustive models
`Matcher::match_string_exhaustive`: run the explicit frame stack starting
from one root Input frame, then update `most_tokens_matched`.  The
`none` fallback is the Rust `unreachable!()` path. -/
def Matcher.match_string_exhaustive (m : Matcher) (string : List Char) :
    List MatchStep × Matcher :=
  let stack : List Frame :=
    [Frame.Input { tokens := m.tokens, string := string, optional_data := none }]
  match runStackFuel (totalCost stack) stack with
  | some matched_tokens =>
    (matched_tokens,
      if matched_tokens.length > m.most_tokens_matched then
        { m with most_tokens_matched := matched_tokens.length }
      else m)
  | none => ([], m)

/-!
Auxiliary definitions used by the theorems below.
-/

/-- utf8Length: the number of bytes of the UTF-8 encoding of a string
modelled as a list of code points. -/
def utf8Length (s : List Char) : Nat := (s.map Char.utf8Size).sum

/-- tokenHasNoAlternation: true for the token kinds other than
`OneOfText`. -/
def tokenHasNoAlternation : MatcherToken → Bool
  | MatcherToken.OneOfText _ => false
  | _ => true

/-- outputCompleteAt extracts the `is_complete_match` flag of the Output
frame at index `i` of a stack (false if there is no such frame). -/
def outputCompleteAt (stack : List Frame) (i : Nat) : Bool :=
  match stack[i]? with
  | some (Frame.Output d) => d.is_complete_match
  | _ => false

/-- Chain tokens s steps rem: `steps` is a sequential single-step match of
a prefix of `tokens` against `s`, each step consuming the front of the
remaining candidate, leaving `rem`.  The single-step semantics is the
dispatch `stepOn` of the matching loops. -/
inductive Chain : List MatcherToken → List Char → List MatchStep → List Char → Prop where
  | nil (tokens : List MatcherToken) (s : List Char) : Chain tokens s [] s
  | cons {token : MatcherToken} {tokens : List MatcherToken} {s sub s2 rem : List Char}
      {steps : List MatchStep} :
      stepOn token [] s = (true, [(token, sub)], s2) →
      Chain tokens s2 steps rem →
      Chain (token :: tokens) s ((token, sub) :: steps) rem

/-- bugPattern: the pattern text of the failing input for the exhaustive
matcher. -/
def bugPattern : List Char := "(x|y)a(c|d)".toList

/-- bugCandidate: the candidate string of the failing input. -/
def bugCandidate : List Char := "xac".toList

/-- bugMatcher: the Matcher that `Matcher.new` compiles `bugPattern` to. -/
def bugMatcher : Matcher :=
  { text := bugPattern,
    tokens := [MatcherToken.OneOfText [['x'], ['y']], MatcherToken.RawText ['a'],
               MatcherToken.OneOfText [['c'], ['d']]],
    most_tokens_matched := 0 }

/-- altChildInput: the child Input frame spawned (while matching
`bugPattern` against `bugCandidate`) from the choice `"x"` of `(x|y)`:
its slice is the two tokens after that alternation, its string is the
candidate after `"x"`, and it carries the chosen step and its parent's
index. -/
def altChildInput : InputData :=
  { tokens := [MatcherToken.RawText ['a'], MatcherToken.OneOfText [['c'], ['d']]],
    string := ['a', 'c'],
    optional_data := some { chosen_option := (MatcherToken.OneOfText [['x'], ['y']], ['x']),
                            parent_frame_index := 0 } }

/-- rootOutput: the root Output frame that is on the stack below
`altChildInput` at that moment. -/
def rootOutput : OutputData :=
  { matched_tokens := [], matched_tokens_count := 0,
    best_current_matched_tokens := [], best_current_matched_tokens_count := 0,
    is_complete_match := false, optional_data := none }

/-!
Claim theorems.
-/

/-- C1: the claim states that `match_string_exhaustive` returns a result
of maximal matched-token count among all ways of resolving the
alternations, preferring complete matches.  The code violates this: on
pattern `(x|y)a(c|d)` and candidate `xac` it returns the 2-step
incomplete result `[(OneOfText,"x"), (RawText "a","a")]`, although the
3-step complete resolution exists — the greedy matcher itself finds it
(3 steps, one per token of the pattern).  The cause is
`process_input_frame` computing `is_complete_match` as
`tokens.len() == matched_tokens_count` although for a frame spawned from
a choice `matched_tokens` also contains the pre-supplied chosen step, so
a child frame that stops at the last alternation of its slice is marked
complete and then discards its own children's longer results. -/
theorem claim_C1_exhaustive_not_maximal :
    Matcher.new bugPattern = some bugMatcher ∧
    (bugMatcher.match_string_exhaustive bugCandidate).1 =
      [(MatcherToken.OneOfText [['x'], ['y']], ['x']), (MatcherToken.RawText ['a'], ['a'])] ∧
    (bugMatcher.match_string bugCandidate).1.length = 3 ∧
    bugMatcher.tokens.length = 3 :=
  ⟨rfl, rfl, rfl, rfl⟩

/-- C2: the claim states that the exhaustive result is always at least as
long as the greedy result.  The code violates this on pattern
`(x|y)a(c|d)` and candidate `xac`: the exhaustive matcher returns 2
steps, the greedy matcher 3. -/
theorem claim_C2_exhaustive_shorter_than_greedy :
    (bugMatcher.match_string_exhaustive bugCandidate).1.length <
      (bugMatcher.match_string bugCandidate).1.length := by
  decide

/-- C3: the claim states that the Output frame pushed by
`process_input_frame` is marked complete only if the walk encountered no
Alternation token and consumed every token of the slice.  The code
violates this: for the frame `altChildInput` (which arises when matching
`(x|y)a(c|d)` against `xac`) the walk stops at the Alternation
`(c|d)` — witnessed by the child Input frame pushed for its matching
option — yet the pushed Output frame carries `is_complete_match = true`,
because the count (1 pre-supplied step + 1 walked step) happens to equal
the slice length 2. -/
theorem claim_C3_complete_flag_set_at_alternation :
    process_input_frame altChildInput [Frame.Output rootOutput] =
      [Frame.Output rootOutput,
       Frame.Output
         { matched_tokens := [[(MatcherToken.OneOfText [['x'], ['y']], ['x']),
                               (MatcherToken.RawText ['a'], ['a'])]],
           matched_tokens_count := 2,
           best_current_matched_tokens := [],
           best_current_matched_tokens_count := 0,
           is_complete_match := true,
           optional_data := some { parent_frame_index := 0 } },
       Frame.Input
         { tokens := [],
           string := [],
           optional_data := some { chosen_option := (MatcherToken.OneOfText [['c'], ['d']], ['c']),
                                   parent_frame_index := 1 } }] ∧
    outputCompleteAt (process_input_frame altChildInput [Frame.Output rootOutput]) 1 = true :=
  ⟨rfl, rfl⟩

/-- C7: compiling `abc(d|e|f).` succeeds with exactly the three tokens
Literal("abc"), Alternation(["d","e","f"]), Wildcard, and compiling
`abc(d|e|f.` (unterminated alternation) fails. -/
theorem claim_C7_compile_roundtrip :
    Matcher.new "abc(d|e|f).".toList = some
      { text := "abc(d|e|f).".toList,
        tokens := [MatcherToken.RawText "abc".toList,
                   MatcherToken.OneOfText ["d".toList, "e".toList, "f".toList],
                   MatcherToken.WildCard],
        most_tokens_matched := 0 } ∧
    Matcher.new "abc(d|e|f.".toList = none :=
  ⟨rfl, rfl⟩

/-- scanF_ne_nil: a successful scan always produces at least one token
(the end-of-input case pushes a final Literal whenever the token list
would otherwise be empty). -/
theorem scanF_ne_nil : ∀ (fuel : Nat) (s rawAcc : List Char) (tokens ts : List MatcherToken),
    scanF fuel s rawAcc tokens = some ts → ts ≠ [] := by
  intro fuel
  induction fuel with
  | zero => intro s rawAcc tokens ts h; simp [scanF] at h
  | succ fuel ih =>
    intro s rawAcc tokens ts h
    cases s with
    | nil =>
      by_cases hc : rawAcc ≠ [] ∨ tokens = []
      · simp only [scanF, if_pos hc] at h
        cases h
        simp
      · simp only [scanF, if_neg hc] at h
        cases h
        push_neg at hc
        exact hc.2
    | cons c rest =>
      simp only [scanF] at h
      by_cases hdot : c = '.'
      · rw [if_pos hdot] at h
        exact ih _ _ _ _ h
      · rw [if_neg hdot] at h
        by_cases hpar : c = '('
        · rw [if_pos hpar] at h
          cases hop : scanOpts rest [] false [] with
          | none => rw [hop] at h; cases h
          | some p =>
            rw [hop] at h
            exact ih _ _ _ _ h
        · rw [if_neg hpar] at h
          exact ih _ _ _ _ h

/-- C8: every pattern text accepted by `Matcher.new` compiles to a
non-empty token sequence, and the empty pattern text compiles to exactly
one token, a Literal containing the empty string. -/
theorem claim_C8_tokens_nonempty : ∀ (text : List Char) (m : Matcher),
    Matcher.new text = some m →
    m.tokens ≠ [] ∧
    Matcher.new [] = some
      { text := [], tokens := [MatcherToken.RawText []], most_tokens_matched := 0 } := by
  intro text m h
  refine ⟨?_, rfl⟩
  unfold Matcher.new at h
  rw [Option.map_eq_some'] at h
  obtain ⟨ts, hts, hm⟩ := h
  have hne := scanF_ne_nil _ _ _ _ _ hts
  rw [← hm]
  simpa using hne

/-- C8 witness: instantiation at pattern text "a". -/
theorem claim_C8_tokens_nonempty_witness :
    ({ text := "a".toList, tokens := [MatcherToken.RawText ['a']],
       most_tokens_matched := 0 } : Matcher).tokens ≠ [] ∧
    Matcher.new [] = some
      { text := [], tokens := [MatcherToken.RawText []], most_tokens_matched := 0 } :=
  claim_C8_tokens_nonempty "a".toList
    { text := "a".toList, tokens := [MatcherToken.RawText ['a']], most_tokens_matched := 0 } rfl

/-- C9: the wildcard single-step matcher succeeds iff at least one
character remains; on success it appends one step whose matched
substring is exactly the next code point (all of its UTF-8 bytes) and
advances the cursor by that code point's byte width; on failure the
cursor and the step list are unchanged. -/
theorem claim_C9_wildcard :
    ∀ (token : MatcherToken) (matched_tokens : List MatchStep) (string : List Char),
    ((match_wild_card token matched_tokens string).1 = true ↔ string ≠ []) ∧
    (string = [] → match_wild_card token matched_tokens string = (false, matched_tokens, string)) ∧
    (∀ c rest, string = c :: rest →
      match_wild_card token matched_tokens string =
        (true, matched_tokens ++ [(token, [c])], rest) ∧
      utf8Length [c] = c.utf8Size ∧
      utf8Length string = c.utf8Size + utf8Length rest) := by
  intro token matched_tokens string
  cases string with
  | nil =>
    refine ⟨by simp [match_wild_card], fun _ => rfl, ?_⟩
    intro c rest h
    cases h
  | cons c rest =>
    refine ⟨by simp [match_wild_card], ?_, ?_⟩
    · intro h
      cases h
    · intro c2 rest2 h
      injection h with h1 h2
      subst h1
      subst h2
      exact ⟨rfl, by simp [utf8Length], by simp [utf8Length]⟩

/-- C9 witness: instantiation at a multi-byte (4-byte) code point. -/
theorem claim_C9_wildcard_witness :
    match_wild_card MatcherToken.WildCard [] ['💪', 'a'] =
      (true, [(MatcherToken.WildCard, ['💪'])], ['a']) ∧
    utf8Length ['💪'] = '💪'.utf8Size ∧
    utf8Length ['💪', 'a'] = '💪'.utf8Size + utf8Length ['a'] :=
  (claim_C9_wildcard MatcherToken.WildCard [] ['💪', 'a']).2.2 '💪' ['a'] rfl

/-- stepOn_append: the single-step matchers only ever append to the
accumulated step vector; running them with an empty accumulator yields
the appended part, the success flag and the new cursor. -/
theorem stepOn_append (token : MatcherToken) (matched : List MatchStep) (s : List Char) :
    stepOn token matched s =
      ((stepOn token [] s).1, matched ++ (stepOn token [] s).2.1, (stepOn token [] s).2.2) := by
  cases token with
  | RawText text =>
    by_cases hp : text.isPrefixOf s
    · simp [stepOn, match_raw_text, hp]
    · simp [stepOn, match_raw_text, hp]
  | OneOfText options =>
    cases hf : options.find? (fun option => option.isPrefixOf s) with
    | some o => simp [stepOn, match_one_of_text, hf]
    | none => simp [stepOn, match_one_of_text, hf]
  | WildCard =>
    cases s with
    | nil => simp [stepOn, match_wild_card]
    | cons c rest => simp [stepOn, match_wild_card]

/-- stepOn_false: on failure a single-step matcher leaves the step vector
and the cursor unchanged. -/
theorem stepOn_false (token : MatcherToken) (s : List Char)
    (h : (stepOn token [] s).1 = false) : stepOn token [] s = (false, [], s) := by
  cases token with
  | RawText text =>
    by_cases hp : text.isPrefixOf s
    · simp [stepOn, match_raw_text, hp] at h
    · simp [stepOn, match_raw_text, hp]
  | OneOfText options =>
    cases hf : options.find? (fun option => option.isPrefixOf s) with
    | some o => simp [stepOn, match_one_of_text, hf] at h
    | none => simp [stepOn, match_one_of_text, hf]
  | WildCard =>
    cases s with
    | nil => simp [stepOn, match_wild_card]
    | cons c rest => simp [stepOn, match_wild_card] at h

/-- stepOn_true: on success a single-step matcher appends exactly one
step carrying the token it was given. -/
theorem stepOn_true (token : MatcherToken) (s : List Char)
    (h : (stepOn token [] s).1 = true) :
    ∃ sub s2, stepOn token [] s = (true, [(token, sub)], s2) := by
  cases token with
  | RawText text =>
    by_cases hp : text.isPrefixOf s
    · exact ⟨s.take text.length, s.drop text.length, by simp [stepOn, match_raw_text, hp]⟩
    · simp [stepOn, match_raw_text, hp] at h
  | OneOfText options =>
    cases hf : options.find? (fun option => option.isPrefixOf s) with
    | some o =>
      exact ⟨s.take o.length, s.drop o.length, by simp [stepOn, match_one_of_text, hf]⟩
    | none => simp [stepOn, match_one_of_text, hf] at h
  | WildCard =>
    cases s with
    | nil => simp [stepOn, match_wild_card] at h
    | cons c rest => exact ⟨[c], rest, by simp [stepOn, match_wild_card]⟩

/-- matchTokens_spec: the greedy walk appends a sequential chain of steps
for an initial segment of the tokens, and stops either because all
tokens matched or because the next token fails on the remaining
candidate. -/
theorem matchTokens_spec : ∀ (tokens : List MatcherToken) (matched : List MatchStep)
    (s : List Char), ∃ steps rem,
    matchTokens tokens matched s = (matched ++ steps, rem) ∧
    Chain tokens s steps rem ∧
    steps.map Prod.fst = tokens.take steps.length ∧
    (steps.length = tokens.length ∨
      ∃ t, tokens[steps.length]? = some t ∧ (stepOn t [] rem).1 = false) := by
  intro tokens
  induction tokens with
  | nil =>
    intro matched s
    exact ⟨[], s, by simp [matchTokens], Chain.nil _ _, by simp, Or.inl rfl⟩
  | cons token rest ih =>
    intro matched s
    cases hb : (stepOn token [] s).1 with
    | false =>
      have hshape := stepOn_false token s hb
      have hst : stepOn token matched s = (false, matched, s) := by
        rw [stepOn_append, hshape]
        simp
      exact ⟨[], s, by simp [matchTokens, hst], Chain.nil _ _, by simp,
        Or.inr ⟨token, by simp, hb⟩⟩
    | true =>
      obtain ⟨sub, s2, hshape⟩ := stepOn_true token s hb
      obtain ⟨steps, rem, h1, h2, h3, h4⟩ := ih (matched ++ [(token, sub)]) s2
      refine ⟨(token, sub) :: steps, rem, ?_, Chain.cons hshape h2, ?_, ?_⟩
      · have hst : stepOn token matched s = (true, matched ++ [(token, sub)], s2) := by
          rw [stepOn_append, hshape]
        have hm : matchTokens (token :: rest) matched s =
            matchTokens rest (matched ++ [(token, sub)]) s2 := by
          simp [matchTokens, hst]
        rw [hm, h1]
        simp
      · simp [h3]
      · cases h4 with
        | inl h => exact Or.inl (by simp [h])
        | inr h =>
          obtain ⟨t, ht1, ht2⟩ := h
          exact Or.inr ⟨t, by simpa using ht1, ht2⟩

/-- C5: `match_string` returns steps for exactly the tokens `0..L-1` of
the pattern, matched sequentially against successive remainders of the
candidate (a `Chain`), where either `L` is the total number of tokens or
token `L` fails on the remaining candidate. -/
theorem claim_C5_greedy_prefix : ∀ (m : Matcher) (s : List Char), ∃ rem,
    Chain m.tokens s (m.match_string s).1 rem ∧
    (m.match_string s).1.map Prod.fst = m.tokens.take (m.match_string s).1.length ∧
    ((m.match_string s).1.length = m.tokens.length ∨
      ∃ t, m.tokens[(m.match_string s).1.length]? = some t ∧ (stepOn t [] rem).1 = false) := by
  intro m s
  obtain ⟨steps, rem, h1, h2, h3, h4⟩ := matchTokens_spec m.tokens [] s
  have hms : (m.match_string s).1 = steps := by
    simp [Matcher.match_string, h1]
  rw [hms]
  exact ⟨rem, h2, h3, h4⟩

/-- specAltScan follows the spec's wording for scanning one alternation
body (spec 4.1 / 7): track only whether the current option is still
empty and whether a pipe has been seen; fail (`none`) when the input is
exhausted before a closing parenthesis, when an option is empty, or when
no pipe was seen before the closing parenthesis; otherwise return the
text after the closing parenthesis. -/
def specAltScan : List Char → Bool → Bool → Option (List Char)
  | [], _, _ => none
  | c :: rest, optionEmpty, sawPipe =>
    if c = '|' then
      if optionEmpty then none else specAltScan rest true true
    else if c = ')' then
      if optionEmpty ∨ sawPipe = false then none else some rest
    else specAltScan rest false sawPipe

/-- specMalformedF follows the spec's wording for "the pattern text
contains a malformed alternation": scan the text; at each `(` check its
body with `specAltScan` and continue after the alternation; any other
character is skipped.  `fuel` only makes the recursion structural (one
unit per character scanned; the fuel-exhausted value is never reached for
fuel larger than the input length). -/
def specMalformedF : Nat → List Char → Bool
  | 0, _ => true
  | _ + 1, [] => false
  | fuel + 1, c :: rest =>
    if c = '(' then
      match specAltScan rest true false with
      | none => true
      | some rest2 => specMalformedF fuel rest2
    else specMalformedF fuel rest

/-- specMalformed: the spec-side recognizer of malformed pattern texts
(unterminated alternation, empty option, or single-option alternation). -/
def specMalformed (text : List Char) : Bool := specMalformedF (text.length + 1) text

/-- scanOpts_map_snd: the source-side alternation parser and the
spec-side alternation scanner agree: they fail on the same inputs and
resume at the same remaining text. -/
theorem scanOpts_map_snd : ∀ (s acc : List Char) (fp : Bool) (opts : List (List Char)),
    (scanOpts s acc fp opts).map (fun x => x.2) = specAltScan s acc.isEmpty fp := by
  intro s
  induction s with
  | nil => intro acc fp opts; simp [scanOpts, specAltScan]
  | cons c rest ih =>
    intro acc fp opts
    by_cases h1 : c = '|'
    · by_cases ha : acc = []
      · simp [scanOpts, specAltScan, h1, ha]
      · have ha2 : acc.isEmpty = false := by
          simp [List.isEmpty_iff, ha]
        simp only [scanOpts, specAltScan, if_pos h1, if_neg ha, ha2, Bool.false_eq_true,
          if_false]
        simpa using ih [] true (opts ++ [acc])
    · by_cases h2 : c = ')'
      · by_cases ha : acc = []
        · simp [scanOpts, specAltScan, h1, h2, ha]
        · have ha2 : acc.isEmpty = false := by
            simp [List.isEmpty_iff, ha]
          by_cases hf : fp = false
          · simp [scanOpts, specAltScan, h1, h2, ha, ha2, hf]
          · simp [scanOpts, specAltScan, h1, h2, ha, ha2, hf]
      · have ha2 : (acc ++ [c]).isEmpty = false := by
          simp [List.isEmpty_iff]
        simp only [scanOpts, specAltScan, if_neg h1, if_neg h2]
        rw [ih (acc ++ [c]) fp opts, ha2]

/-- scanOpts_rest_lt: on success the alternation parser strictly consumes
input (at least the closing parenthesis). -/
theorem scanOpts_rest_lt : ∀ (s acc : List Char) (fp : Bool) (opts : List (List Char))
    (o : List (List Char)) (rest : List Char),
    scanOpts s acc fp opts = some (o, rest) → rest.length < s.length := by
  intro s
  induction s with
  | nil => intro acc fp opts o rest h; simp [scanOpts] at h
  | cons c r ih =>
    intro acc fp opts o rest h
    by_cases h1 : c = '|'
    · by_cases ha : acc = []
      · simp [scanOpts, h1, ha] at h
      · simp only [scanOpts, if_pos h1, if_neg ha] at h
        exact Nat.lt_trans (ih _ _ _ _ _ h) (Nat.lt_succ_self _)
    · by_cases h2 : c = ')'
      · by_cases hc : acc = [] ∨ fp = false
        · simp [scanOpts, h1, h2, hc] at h
        · simp only [scanOpts, if_neg h1, if_pos h2, if_neg hc] at h
          cases h
          exact Nat.lt_succ_self _
      · simp only [scanOpts, if_neg h1, if_neg h2] at h
        exact Nat.lt_trans (ih _ _ _ _ _ h) (Nat.lt_succ_self _)

/-- scanF_none_iff_specMalformedF: with sufficient fuel, the compiler's
scan fails exactly on the pattern texts the spec-side recognizer calls
malformed (the raw-text accumulator and the tokens built so far are
irrelevant to failure). -/
theorem scanF_none_iff_specMalformedF : ∀ (fuel : Nat) (s rawAcc : List Char)
    (tokens : List MatcherToken), s.length < fuel →
    (scanF fuel s rawAcc tokens = none ↔ specMalformedF fuel s = true) := by
  intro fuel
  induction fuel with
  | zero => intro s rawAcc tokens h; omega
  | succ fuel ih =>
    intro s rawAcc tokens h
    cases s with
    | nil =>
      by_cases hc : rawAcc ≠ [] ∨ tokens = [] <;> simp [scanF, specMalformedF, hc]
    | cons c rest =>
      have hrest : rest.length < fuel := by
        simpa using Nat.lt_of_succ_lt_succ (by simpa using h)
      by_cases hdot : c = '.'
      · have hpar : ¬(c = '(') := by rw [hdot]; decide
        simp only [scanF, specMalformedF, if_pos hdot, if_neg hpar]
        exact ih rest [] _ hrest
      · by_cases hpar : c = '('
        · simp only [scanF, specMalformedF, if_neg hdot, if_pos hpar]
          cases hop : scanOpts rest [] false [] with
          | none =>
            have hspec : specAltScan rest true false = none := by
              have := scanOpts_map_snd rest [] false []
              rw [hop] at this
              simpa using this.symm
            simp [hspec]
          | some p =>
            obtain ⟨o, rest2⟩ := p
            have hspec : specAltScan rest true false = some rest2 := by
              have := scanOpts_map_snd rest [] false []
              rw [hop] at this
              simpa using this.symm
            have hlt : rest2.length < fuel :=
              Nat.lt_trans (scanOpts_rest_lt rest [] false [] o rest2 hop) hrest
            simp only [hspec]
            exact ih rest2 [] _ hlt
        · simp only [scanF, specMalformedF, if_neg hdot, if_neg hpar]
          exact ih rest _ _ hrest

/-- C6: `Matcher.new` fails exactly on the pattern texts that contain a
malformed alternation in the spec's sense (unterminated, empty option,
or single option with no pipe); on failure no partial Matcher is
produced (the result is `none`), and every other pattern text compiles
successfully. -/
theorem claim_C6_compile_failure_iff : ∀ (text : List Char),
    Matcher.new text = none ↔ specMalformed text = true := by
  intro text
  unfold Matcher.new specMalformed
  rw [Option.map_eq_none']
  exact scanF_none_iff_specMalformedF (text.length + 1) text [] [] (Nat.lt_succ_self _)

/-- MatchCall: one public matching call on a Matcher instance. -/
inductive MatchCall where
  | greedy (string : List Char)
  | exhaustive (string : List Char)

/-- applyCall: perform one matching call, returning its result and the
updated Matcher. -/
def applyCall (m : Matcher) : MatchCall → List MatchStep × Matcher
  | MatchCall.greedy s => m.match_string s
  | MatchCall.exhaustive s => m.match_string_exhaustive s

/-- runCalls: perform a sequence of matching calls on one Matcher
instance, returning the final Matcher and the list of results in call
order. -/
def runCalls (m : Matcher) : List MatchCall → Matcher × List (List MatchStep)
  | [] => (m, [])
  | c :: cs =>
    let r := applyCall m c
    let rr := runCalls r.2 cs
    (rr.1, r.1 :: rr.2)

/-- applyCall_most: each matching call updates `most_tokens_matched` to
the maximum of its previous value and the returned result's length
(both matchers use the same `if len > most` update; the unreachable
fallback of the exhaustive matcher returns the empty result and leaves
the counter unchanged, which is also that maximum). -/
theorem applyCall_most (m : Matcher) (c : MatchCall) :
    (applyCall m c).2.most_tokens_matched =
      Nat.max m.most_tokens_matched (applyCall m c).1.length := by
  cases c with
  | greedy s =>
    simp only [applyCall, Matcher.match_string]
    by_cases h : (matchTokens m.tokens [] s).1.length > m.most_tokens_matched
    · simp [h, Nat.max_eq_right (Nat.le_of_lt h)]
    · simp [h, Nat.max_eq_left (Nat.le_of_not_lt h)]
  | exhaustive s =>
    simp only [applyCall, Matcher.match_string_exhaustive]
    rcases hr : runStackFuel
        (totalCost [Frame.Input { tokens := m.tokens, string := s, optional_data := none }])
        [Frame.Input { tokens := m.tokens, string := s, optional_data := none }] with _ | r
    · simp [hr]
    · simp only [hr]
      by_cases h : r.length > m.most_tokens_matched
      · simp [h, Nat.max_eq_right (Nat.le_of_lt h)]
      · simp [h, Nat.max_eq_left (Nat.le_of_not_lt h)]

/-- foldrMaxMax: folding max starting from a max of two values. -/
theorem foldrMaxMax : ∀ (L : List Nat) (a b : Nat),
    L.foldr Nat.max (Nat.max a b) = Nat.max b (L.foldr Nat.max a) := by
  intro L
  induction L with
  | nil => intro a b; simp [Nat.max_comm]
  | cons x L ih =>
    intro a b
    rw [List.foldr_cons, List.foldr_cons, ih]
    exact Nat.max_left_comm _ _ _

/-- runCalls_fst_most: after any sequence of calls, the counter equals
the maximum of its starting value and all result lengths produced. -/
theorem runCalls_fst_most : ∀ (cs : List MatchCall) (m : Matcher),
    (runCalls m cs).1.most_tokens_matched =
      ((runCalls m cs).2.map List.length).foldr Nat.max m.most_tokens_matched := by
  intro cs
  induction cs with
  | nil => intro m; simp [runCalls]
  | cons c cs ih =>
    intro m
    simp only [runCalls, List.map_cons, List.foldr_cons]
    rw [ih (applyCall m c).2, applyCall_most]
    exact foldrMaxMax _ _ _

/-- runCalls_append_fst: running a concatenation of call sequences is
running them one after the other. -/
theorem runCalls_append_fst : ∀ (cs1 cs2 : List MatchCall) (m : Matcher),
    (runCalls m (cs1 ++ cs2)).1 = (runCalls (runCalls m cs1).1 cs2).1 := by
  intro cs1
  induction cs1 with
  | nil => intro cs2 m; simp [runCalls]
  | cons c cs ih =>
    intro cs2 m
    simp only [List.cons_append, runCalls]
    exact ih cs2 _

/-- most_le_runCalls: the counter never decreases across calls. -/
theorem most_le_runCalls : ∀ (cs : List MatchCall) (m : Matcher),
    m.most_tokens_matched ≤ (runCalls m cs).1.most_tokens_matched := by
  intro cs
  induction cs with
  | nil => intro m; simp [runCalls]
  | cons c cs ih =>
    intro m
    simp only [runCalls]
    have h1 : m.most_tokens_matched ≤ (applyCall m c).2.most_tokens_matched := by
      rw [applyCall_most]
      exact Nat.le_max_left _ _
    exact Nat.le_trans h1 (ih _)

/-- C4: on every compiled Matcher the counter starts at 0, after any
sequence of `match_string` / `match_string_exhaustive` calls it equals
the maximum result length returned so far, and it never decreases when
further calls are appended. -/
theorem claim_C4_counter : ∀ (text : List Char) (m : Matcher),
    Matcher.new text = some m →
    m.most_tokens_matched = 0 ∧
    (∀ calls, (runCalls m calls).1.most_tokens_matched =
      ((runCalls m calls).2.map List.length).foldr Nat.max 0) ∧
    (∀ calls1 calls2, (runCalls m calls1).1.most_tokens_matched ≤
      (runCalls m (calls1 ++ calls2)).1.most_tokens_matched) := by
  intro text m h
  have h0 : m.most_tokens_matched = 0 := by
    unfold Matcher.new at h
    rw [Option.map_eq_some'] at h
    obtain ⟨ts, _, hm⟩ := h
    rw [← hm]
  refine ⟨h0, ?_, ?_⟩
  · intro calls
    rw [runCalls_fst_most, h0]
  · intro calls1 calls2
    rw [runCalls_append_fst]
    exact most_le_runCalls calls2 _

/-- C4 witness: instantiation at the pattern "a" and one greedy call. -/
theorem claim_C4_counter_witness :
    (runCalls { text := "a".toList, tokens := [MatcherToken.RawText ['a']],
                most_tokens_matched := 0 } [MatchCall.greedy "a".toList]).1.most_tokens_matched =
      ((runCalls { text := "a".toList, tokens := [MatcherToken.RawText ['a']],
                   most_tokens_matched := 0 } [MatchCall.greedy "a".toList]).2.map
          List.length).foldr Nat.max 0 :=
  (claim_C4_counter "a".toList
    { text := "a".toList, tokens := [MatcherToken.RawText ['a']], most_tokens_matched := 0 }
    rfl).2.1 [MatchCall.greedy "a".toList]

/-- tokensCost_pos: the measure of a token slice is at least 2. -/
theorem tokensCost_pos : ∀ (ts : List MatcherToken), 2 ≤ tokensCost ts := by
  intro ts
  induction ts with
  | nil => simp [tokensCost]
  | cons t rest ih =>
    cases t with
    | RawText text => simp only [tokensCost]; omega
    | OneOfText options => simp only [tokensCost]; omega
    | WildCard => simp only [tokensCost]; omega

/-- walkInput_noAlt: on a token slice without alternations the walk of
`process_input_frame` is exactly the greedy walk and yields no branch
point. -/
theorem walkInput_noAlt : ∀ (tokens : List MatcherToken) (index : Nat)
    (matched : List MatchStep) (s : List Char),
    tokens.all tokenHasNoAlternation = true →
    walkInput tokens index matched s =
      ((matchTokens tokens matched s).1, (matchTokens tokens matched s).2, []) := by
  intro tokens
  induction tokens with
  | nil => intro index matched s h; simp [walkInput, matchTokens]
  | cons token rest ih =>
    intro index matched s h
    simp only [List.all_cons, Bool.and_eq_true] at h
    cases token with
    | RawText text =>
      cases hb : (match_raw_text text (MatcherToken.RawText text) matched s).1 with
      | true =>
        simp only [walkInput, matchTokens, stepOn, hb, if_true]
        exact ih _ _ _ h.2
      | false => simp [walkInput, matchTokens, stepOn, hb]
    | OneOfText options => exact absurd h.1 (by simp [tokenHasNoAlternation])
    | WildCard =>
      cases hb : (match_wild_card MatcherToken.WildCard matched s).1 with
      | true =>
        simp only [walkInput, matchTokens, stepOn, hb, if_true]
        exact ih _ _ _ h.2
      | false => simp [walkInput, matchTokens, stepOn, hb]

/-- C10: on a pattern whose token sequence contains no Alternation token,
`match_string_exhaustive` returns exactly the same step list as
`match_string` and leaves the Matcher (in particular
`most_tokens_matched`) in the same state. -/
theorem claim_C10_exhaustive_eq_greedy_no_alternation :
    ∀ (m : Matcher) (s : List Char),
    m.tokens.all tokenHasNoAlternation = true →
    m.match_string_exhaustive s = m.match_string s := by
  intro m s h
  have hw := walkInput_noAlt m.tokens 0 [] s h
  have hpi : process_input_frame
      { tokens := m.tokens, string := s, optional_data := none } [] =
      [Frame.Output {
        matched_tokens :=
          if (matchTokens m.tokens [] s).1.isEmpty then []
          else [(matchTokens m.tokens [] s).1],
        matched_tokens_count := (matchTokens m.tokens [] s).1.length,
        best_current_matched_tokens := [],
        best_current_matched_tokens_count := 0,
        is_complete_match := m.tokens.length == (matchTokens m.tokens [] s).1.length,
        optional_data := none }] := by
    simp [process_input_frame, hw]
  obtain ⟨k, hk⟩ : ∃ k, tokensCost m.tokens = k + 2 :=
    ⟨tokensCost m.tokens - 2, by have := tokensCost_pos m.tokens; omega⟩
  have hcost : totalCost [Frame.Input { tokens := m.tokens, string := s, optional_data := none }]
      = tokensCost m.tokens := by
    simp [totalCost, frameCost]
  have hrun : runStackFuel
      (totalCost [Frame.Input { tokens := m.tokens, string := s, optional_data := none }])
      [Frame.Input { tokens := m.tokens, string := s, optional_data := none }] =
      some (matchTokens m.tokens [] s).1 := by
    rw [hcost, hk]
    show runStackFuel (k + 1 + 1) _ = _
    simp only [runStackFuel, List.getLast?_singleton, List.dropLast_single]
    rw [hpi]
    simp only [runStackFuel, List.getLast?_singleton, List.dropLast_single,
      process_output_frame]
    cases hg : (matchTokens m.tokens [] s).1 with
    | nil => simp [hg]
    | cons a l => simp [hg]
  simp only [Matcher.match_string_exhaustive, Matcher.match_string]
  rw [hrun]

/-- C10 witness: instantiation at the alternation-free pattern "a.". -/
theorem claim_C10_exhaustive_eq_greedy_witness :
    ({ text := "a.".toList, tokens := [MatcherToken.RawText ['a'], MatcherToken.WildCard],
       most_tokens_matched := 0 } : Matcher).match_string_exhaustive "ab".toList =
    ({ text := "a.".toList, tokens := [MatcherToken.RawText ['a'], MatcherToken.WildCard],
       most_tokens_matched := 0 } : Matcher).match_string "ab".toList :=
  claim_C10_exhaustive_eq_greedy_no_alternation
    { text := "a.".toList, tokens := [MatcherToken.RawText ['a'], MatcherToken.WildCard],
      most_tokens_matched := 0 } "ab".toList (by decide)

/-!
Adequacy of the fuel: `totalCost` strictly decreases at every iteration
of the search loop, so `runStackFuel` computes the same value for every
fuel at least `totalCost stack` — in particular the fuel passed by
`Matcher.match_string_exhaustive` never runs out, and the embedding
agrees with the unbounded Rust loop.
-/

/-- frameCost_pos: every frame costs at least 1. -/
theorem frameCost_pos : ∀ (f : Frame), 1 ≤ frameCost f := by
  intro f
  cases f with
  | Input d => exact Nat.le_trans (by omega) (tokensCost_pos d.tokens)
  | Output d => simp [frameCost]

/-- totalCost_append: the measure is additive. -/
theorem totalCost_append (a b : List Frame) :
    totalCost (a ++ b) = totalCost a + totalCost b := by
  simp [totalCost]

/-- sumMapConst: summing a constant over a list. -/
theorem sumMapConst {α : Type} (L : List α) (c : Nat) :
    (L.map (fun _ => c)).sum = L.length * c := by
  induction L with
  | nil => simp
  | cons a L ih =>
    simp only [List.map_cons, List.sum_cons, List.length_cons, ih, Nat.succ_mul]
    omega

/-- walkInput_measure: the branch points returned by the walk all start
strictly after the first alternation of the slice, so the total measure
of the spawned children plus the pushed Output frame is strictly below
the measure of the processed slice. -/
theorem walkInput_measure : ∀ (ts full : List MatcherToken) (idx : Nat)
    (matched : List MatchStep) (s : List Char), full.drop idx = ts →
    ((walkInput ts idx matched s).2.2.map
      (fun x => tokensCost (full.drop (x.1 + 1)))).sum + 2 ≤ tokensCost ts := by
  intro ts
  induction ts with
  | nil => intro full idx matched s h; simp [walkInput, tokensCost]
  | cons token rest ih =>
    intro full idx matched s h
    have hdrop : full.drop (idx + 1) = rest := by
      have h2 : List.drop 1 (full.drop idx) = rest := by rw [h]; rfl
      rw [List.drop_drop] at h2
      exact h2
    have hpos := tokensCost_pos rest
    cases token with
    | RawText text =>
      cases hb : (match_raw_text text (MatcherToken.RawText text) matched s).1 with
      | true =>
        simp only [walkInput, hb, if_true]
        have := ih full (idx + 1)
          (match_raw_text text (MatcherToken.RawText text) matched s).2.1
          (match_raw_text text (MatcherToken.RawText text) matched s).2.2 hdrop
        simp only [tokensCost]
        omega
      | false =>
        simp [walkInput, hb, tokensCost]
        omega
    | OneOfText options =>
      simp only [walkInput, match_one_of_text_exhaustive, List.map_map]
      have hconst : ((options.filter (fun option => option.isPrefixOf s)).map
          ((fun x => tokensCost (full.drop (x.1 + 1))) ∘
            (fun option => (idx, MatcherToken.OneOfText options, option)))).sum =
          (options.filter (fun option => option.isPrefixOf s)).length * tokensCost rest := by
        simp only [Function.comp_def, hdrop]
        exact sumMapConst _ _
      rw [hconst]
      have hle : (options.filter (fun option => option.isPrefixOf s)).length ≤
          options.length := List.length_filter_le _ _
      have hmul : (options.filter (fun option => option.isPrefixOf s)).length *
          tokensCost rest ≤ options.length * tokensCost rest :=
        Nat.mul_le_mul_right _ hle
      simp only [tokensCost]
      omega
    | WildCard =>
      cases hb : (match_wild_card MatcherToken.WildCard matched s).1 with
      | true =>
        simp only [walkInput, hb, if_true]
        have := ih full (idx + 1)
          (match_wild_card MatcherToken.WildCard matched s).2.1
          (match_wild_card MatcherToken.WildCard matched s).2.2 hdrop
        simp only [tokensCost]
        omega
      | false =>
        simp [walkInput, hb, tokensCost]
        omega

/-- totalCost_process_input: processing an Input frame strictly decreases
the measure (the popped frame cost `tokensCost d.tokens`; the pushed
Output frame and children cost strictly less). -/
theorem totalCost_process_input (d : InputData) (stack : List Frame) :
    totalCost (process_input_frame d stack) + 1 ≤ totalCost stack + tokensCost d.tokens := by
  have hm := walkInput_measure d.tokens d.tokens 0
    (match d.optional_data with
     | none => []
     | some x => [x.chosen_option]) d.string (List.drop_zero _)
  simp only [process_input_frame]
  rw [totalCost_append, totalCost_append]
  simp only [totalCost, List.map_map, List.map_cons, List.map_nil, List.sum_cons,
    List.sum_nil, Function.comp_def, frameCost]
  omega

/-- totalCost_set_output: replacing an Output frame by another Output
frame leaves the measure unchanged. -/
theorem totalCost_set_output : ∀ (stack : List Frame) (i : Nat) (p p2 : OutputData),
    stack[i]? = some (Frame.Output p) →
    totalCost (stack.set i (Frame.Output p2)) = totalCost stack := by
  intro stack
  induction stack with
  | nil => intro i p p2 h; simp at h
  | cons f rest ih =>
    intro i p p2 h
    cases i with
    | zero =>
      simp only [List.getElem?_cons_zero, Option.some.injEq] at h
      subst h
      simp [totalCost, frameCost]
    | succ i =>
      simp only [List.getElem?_cons_succ] at h
      simp only [List.set_cons_succ, totalCost, List.map_cons, List.sum_cons]
      have := ih i p p2 h
      simp only [totalCost] at this
      omega

/-- totalCost_process_output: a merge into the parent frame leaves the
measure of the remaining stack unchanged (an Output frame is replaced by
an Output frame). -/
theorem totalCost_process_output (o : OutputData) (stack : List Frame) :
    totalCost (process_output_frame o stack).2 = totalCost stack := by
  simp only [process_output_frame]
  cases ho : o.optional_data with
  | none => simp
  | some od =>
    cases hp : stack[od.parent_frame_index]? with
    | none => simp [hp]
    | some f =>
      cases f with
      | Input d => simp [hp]
      | Output p =>
        simp only [hp]
        exact totalCost_set_output stack _ p _ hp

/-- runStackFuel_nil: the loop on an empty stack yields the unreachable
result for every fuel. -/
theorem runStackFuel_nil : ∀ (fuel : Nat), runStackFuel fuel [] = none := by
  intro fuel
  cases fuel <;> simp [runStackFuel]

/-- stack_nil_of_totalCost_eq_zero: only the empty stack has measure 0. -/
theorem stack_nil_of_totalCost_eq_zero : ∀ (stack : List Frame),
    totalCost stack = 0 → stack = [] := by
  intro stack h
  cases stack with
  | nil => rfl
  | cons f rest =>
    exfalso
    have := frameCost_pos f
    simp only [totalCost, List.map_cons, List.sum_cons] at h
    omega

/-- runStackFuel_fuel_irrelevant: any two fuels at least `totalCost stack`
make `runStackFuel` compute the same result; hence the fuel passed by
`Matcher.match_string_exhaustive` is as good as unbounded iteration. -/
theorem runStackFuel_fuel_irrelevant : ∀ (n : Nat) (stack : List Frame) (f g : Nat),
    totalCost stack ≤ n → totalCost stack ≤ f → totalCost stack ≤ g →
    runStackFuel f stack = runStackFuel g stack := by
  intro n
  induction n with
  | zero =>
    intro stack f g hn hf hg
    have h0 : totalCost stack = 0 := Nat.le_zero.mp hn
    rw [stack_nil_of_totalCost_eq_zero stack h0, runStackFuel_nil, runStackFuel_nil]
  | succ n ih =>
    intro stack f g hn hf hg
    cases hstack : stack.getLast? with
    | none =>
      have hnil : stack = [] := by
        cases stack with
        | nil => rfl
        | cons a l => simp at hstack
      rw [hnil, runStackFuel_nil, runStackFuel_nil]
    | some frame =>
      have hne : stack ≠ [] := by
        intro h2
        rw [h2] at hstack
        simp at hstack
      have hlast : frame = stack.getLast hne := by
        have hgl := List.getLast?_eq_getLast stack hne
        rw [hstack] at hgl
        injection hgl
      have hsplit : stack.dropLast ++ [frame] = stack := by
        rw [hlast]
        exact List.dropLast_append_getLast hne
      have hco : totalCost stack = totalCost stack.dropLast + frameCost frame := by
        conv_lhs => rw [← hsplit]
        rw [totalCost_append]
        simp [totalCost]
      have hfc := frameCost_pos frame
      obtain ⟨f2, rfl⟩ : ∃ f2, f = f2 + 1 := ⟨f - 1, by omega⟩
      obtain ⟨g2, rfl⟩ : ∃ g2, g = g2 + 1 := ⟨g - 1, by omega⟩
      cases frame with
      | Input d =>
        have hfcd : frameCost (Frame.Input d) = tokensCost d.tokens := rfl
        have hdec := totalCost_process_input d stack.dropLast
        simp only [runStackFuel, hstack]
        apply ih
        · omega
        · omega
        · omega
      | Output o =>
        have hfco : frameCost (Frame.Output o) = 1 := rfl
        simp only [runStackFuel, hstack]
        cases hr : (process_output_frame o stack.dropLast).1 with
        | some res => simp [hr]
        | none =>
          simp only [hr]
          have hdec := totalCost_process_output o stack.dropLast
          apply ih
          · omega
          · omega
          · omega
